import Mathlib

/-!
Shallow embedding of `src/vec.rs` (crate `cow_structs`): a copy-on-write
radix-trie vector `CowVec` with branching factor 32 and a tail buffer.

Modelling conventions:
* `ArrayVec<[T; 32]>` is a `List` of length at most 32; its `push` panics on
  capacity overflow, modelled by `avPush` returning `none`.
* `Arc`/`Arc::make_mut` only affect aliasing, which is invisible in a pure
  functional semantics; cloning is value copying, so they are modelled as
  the identity.
* Panics (`unwrap`, `unreachable!`, out-of-bounds indexing, `usize`
  underflow in debug builds) are modelled by `Option`, `none` meaning the
  operation panics.
* `get_mut` has the same routing and the same panic conditions as `get`;
  a write `*v.get_mut(i) = x` is modelled by the functional update
  `CowVec.set`, and `mem::replace(v.get_mut(i), x)` by reading with
  `CowVec.get` and then updating with `CowVec.set`.
-/

namespace CowStructs

def NODE_SIZE : Nat := 32
def SHIFT : Nat := 5
def MASK : Nat := NODE_SIZE - 1

/-- The node type of the trie: `enum Node<V>` in the source. -/
inductive Node (V : Type) where
  | Internal : List (Node V) → Node V
  | External : List V → Node V
  | Empty : Node V

variable {V : Type}

/-- `ArrayVec::push`: panics (here `none`) when the fixed capacity 32 is full. -/
def avPush (l : List α) (a : α) : Option (List α) :=
  if l.length < NODE_SIZE then some (l ++ [a]) else none

/-- `Node::make_internal_mut`: narrows to the `Internal` payload, panicking
(`none`) on any other variant. -/
def Node.make_internal_mut : Node V → Option (List (Node V))
  | Node.Internal n => some n
  | _ => none

/-- `Node::to_external`: narrows to the `External` payload, panicking
(`none`) on any other variant. -/
def Node.to_external : Node V → Option (List V)
  | Node.External n => some n
  | _ => none

/-- `struct CowVec<V>`. -/
structure CowVec (V : Type) where
  root : Node V
  depth : Nat
  tail : List V
  len : Nat

/-- `CowVec::new`. -/
def CowVec.new : CowVec V := ⟨Node.Empty, 0, [], 0⟩

/-- `CowVec::new_path`: grows a fresh rightmost path of `Internal` nodes down
to depth 1 and attaches `ext` there.  The `0` case is the `usize` underflow
`depth - 1` would hit in the source (callers always pass `depth ≥ 1`). -/
def new_path : List (Node V) → Nat → Node V → Option (List (Node V))
  | node, 1, ext => avPush node ext
  | node, d+2, ext => do
      let node1 ← avPush node (Node.Internal [])
      let last ← node1.getLast?
      let inner ← last.make_internal_mut
      let inner1 ← new_path inner (d+1) ext
      pure (node1.dropLast ++ [Node.Internal inner1])
  | _, 0, _ => none

/-- `CowVec::push_external`: descends the rightmost spine to depth 1 and
pushes `ext` there; when a node has no children it starts a `new_path`.
The `0` case is the `usize` underflow of the source (never reached from
`push`, which passes `depth ≥ 1`). -/
def push_external : List (Node V) → Nat → Node V → Option (List (Node V))
  | node, 1, ext => avPush node ext
  | node, d+2, ext =>
      match node.getLast? with
      | some last => do
          let inner ← last.make_internal_mut
          let inner1 ← push_external inner (d+1) ext
          pure (node.dropLast ++ [Node.Internal inner1])
      | none => new_path node (d+2) ext
  | _, 0, _ => none

/-- `CowVec::push`. -/
def CowVec.push (c : CowVec V) (v : V) : Option (CowVec V) :=
  if c.tail.length < NODE_SIZE then
    some { c with tail := c.tail ++ [v], len := c.len + 1 }
  else
    let old_tail : Node V := Node.External c.tail
    -- special case where the tail becomes the root
    if c.len = NODE_SIZE then
      some { c with root := old_tail, tail := [v], len := c.len + 1 }
    else
      -- fall-through: wrap the old root in a fresh Internal node
      let grow : Option (CowVec V) := do
        let r0 ← avPush [] c.root
        let r1 ← new_path r0 (c.depth + 1) old_tail
        pure { root := Node.Internal r1, depth := c.depth + 1,
               tail := [v], len := c.len + 1 }
      match c.root with
      | Node.Internal r =>
          if r.length < NODE_SIZE then do
            let r1 ← push_external r c.depth old_tail
            pure { c with root := Node.Internal r1, tail := [v], len := c.len + 1 }
          else grow
      | _ => grow

/-- `CowVec::pop_external`: detaches the rightmost `External` node, returning
`(detached, nowEmpty, updatedNode)`.  The `0` case is the `usize` underflow
of the source. -/
def pop_external : Node V → Nat → Option (Node V × Bool × Node V)
  | node, 1 => do
      let n ← node.make_internal_mut
      let ext ← n.getLast?
      let n1 := n.dropLast
      let empty := n1.isEmpty
      pure (ext, empty, if empty then Node.Empty else Node.Internal n1)
  | node, d+2 => do
      let n ← node.make_internal_mut
      let next ← n.getLast?
      let n1 := n.dropLast
      let r ← pop_external next (d+1)
      let n2 ← if r.2.1 then pure n1 else avPush n1 r.2.2
      let empty := n2.isEmpty
      pure (r.1, empty, if empty then Node.Empty else Node.Internal n2)
  | _, 0 => none

/-- `CowVec::pop`: returns `some (r, c')` where `r` is the source's
`Option<V>` result and `c'` the updated vector; `none` means a panic. -/
def CowVec.pop (c : CowVec V) : Option (Option V × CowVec V) :=
  if c.len = 0 then some (none, c)
  else if c.len = 1 ∨ c.tail.length > 1 then
    some (c.tail.getLast?, { c with tail := c.tail.dropLast, len := c.len - 1 })
  else if c.len - 1 = NODE_SIZE then do
    -- special case where the root becomes the tail
    let value ← c.tail.getLast?
    let t ← c.root.to_external
    pure (some value, { root := Node.Empty, depth := 0, tail := t, len := c.len - 1 })
  else do
    let value ← c.tail.getLast?
    let r ← pop_external c.root c.depth
    let t ← r.1.to_external
    let c1 : CowVec V := { root := r.2.2, depth := c.depth, tail := t, len := c.len - 1 }
    -- root killer: collapse a single-child Internal root
    let c2 : CowVec V :=
      match c1.root with
      | Node.Internal rts =>
          if rts.length = 1 then
            match rts.getLast? with
            | some rk => { c1 with root := rk, depth := c1.depth - 1 }
            | none => c1
          else c1
      | _ => c1
    pure (some value, c2)

/-- `CowVec::tail_offset`. -/
def CowVec.tail_offset (c : CowVec V) : Nat := c.len - c.tail.length

/-- `CowVec::get_external`: the recursive descent of `get` (and of
`get_mut`, whose routing is identical).  Out-of-bounds child access and the
`Empty` variant (`unreachable!`) panic, i.e. return `none`. -/
def get_external : Node V → Nat → Nat → Option V
  | Node.External n, index, _ => n[index &&& MASK]?
  | Node.Internal n, index, shift =>
      match h : n[(index >>> shift) &&& MASK]? with
      | some next => get_external next index (shift - SHIFT)
      | none => none
  | Node.Empty, _, _ => none
termination_by node _ _ => sizeOf node
decreasing_by
  have hm : next ∈ n := List.getElem?_mem h
  have := List.sizeOf_lt_of_mem hm
  simp only [Node.Internal.sizeOf_spec]
  omega

/-- `CowVec::get` (and the read performed through `CowVec::get_mut`, which
routes identically). -/
def CowVec.get (c : CowVec V) (index : Nat) : Option V :=
  if index ≥ c.tail_offset then c.tail[index &&& MASK]?
  else get_external c.root index (c.depth * SHIFT)

/-- Recursive descent of `get_mut` followed by a write through the returned
reference: same routing and panic conditions as `get_external`, returning
the updated node. -/
def set_external : Node V → Nat → Nat → V → Option (Node V)
  | Node.External n, index, _, v =>
      if (index &&& MASK) < n.length then
        some (Node.External (n.set (index &&& MASK) v))
      else none
  | Node.Internal n, index, shift, v =>
      match h : n[(index >>> shift) &&& MASK]? with
      | some next =>
          match set_external next index (shift - SHIFT) v with
          | some next1 =>
              some (Node.Internal (n.set ((index >>> shift) &&& MASK) next1))
          | none => none
      | none => none
  | Node.Empty, _, _, _ => none
termination_by node _ _ _ => sizeOf node
decreasing_by
  have hm : next ∈ n := List.getElem?_mem h
  have := List.sizeOf_lt_of_mem hm
  simp only [Node.Internal.sizeOf_spec]
  omega

/-- Write through `CowVec::get_mut`: `*c.get_mut(index) = v`. -/
def CowVec.set (c : CowVec V) (index : Nat) (v : V) : Option (CowVec V) :=
  if index ≥ c.tail_offset then
    if (index &&& MASK) < c.tail.length then
      some { c with tail := c.tail.set (index &&& MASK) v }
    else none
  else do
    let r ← set_external c.root index (c.depth * SHIFT) v
    pure { c with root := r }

/-- `CowVec::swap_remove`: `pop().unwrap()`, then either return the popped
value directly (when `index` equals the post-pop length) or
`mem::replace(self.get_mut(index), last)`. -/
def CowVec.swap_remove (c : CowVec V) (index : Nat) : Option (V × CowVec V) := do
  let r ← c.pop
  let last ← r.1
  if index = r.2.len then
    pure (last, r.2)
  else do
    let old ← r.2.get index
    let c2 ← r.2.set index last
    pure (old, c2)

/-! Iterated operations used to state whole-run properties. -/

/-- Push every element of `vs` in order; `none` if some push panics. -/
def pushAll : CowVec V → List V → Option (CowVec V)
  | c, [] => some c
  | c, v :: vs =>
      match c.push v with
      | some c1 => pushAll c1 vs
      | none => none

/-- Perform `k` pops, collecting the `Option<V>` results; `none` if some pop
panics. -/
def popN : CowVec V → Nat → Option (List (Option V))
  | _, 0 => some []
  | c, k+1 =>
      match c.pop with
      | some (r, c1) =>
          match popN c1 k with
          | some rest => some (r :: rest)
          | none => none
      | none => none

/-- Number of children of the root, `0` if the root is not `Internal`. -/
def rootWidth (c : CowVec V) : Nat :=
  match c.root with
  | Node.Internal ns => ns.length
  | _ => 0

/-- Number of children of the rightmost child of the root, `0` if that child
is not `Internal`. -/
def lastBranchWidth (c : CowVec V) : Nat :=
  match c.root with
  | Node.Internal ns =>
      match ns.getLast? with
      | some (Node.Internal ms) => ms.length
      | _ => 0
  | _ => 0

/-! ### Abstraction: the list of elements stored in a tree / vector -/

mutual

/-- Elements stored in a tree, in index order. -/
def Node.toList : Node V → List V
  | Node.External n => n
  | Node.Internal ns => nodesToList ns
  | Node.Empty => []

/-- Elements stored in a forest, in index order. -/
def nodesToList : List (Node V) → List V
  | [] => []
  | n :: ns => n.toList ++ nodesToList ns

end

/-- Elements logically stored in the vector, in index order. -/
def CowVec.toList (c : CowVec V) : List V := c.root.toList ++ c.tail

theorem nodesToList_append (ns ms : List (Node V)) :
    nodesToList (ns ++ ms) = nodesToList ns ++ nodesToList ms := by
  induction ns with
  | nil => rfl
  | cons n ns ih => simp [nodesToList, ih]

/-! ### Bit-twiddling bridges -/

theorem mask_eq_mod (x : Nat) : x &&& MASK = x % NODE_SIZE := by
  have h := Nat.and_pow_two_sub_one_eq_mod x 5
  norm_num at h
  simpa [MASK, NODE_SIZE] using h

theorem shift_eq_div (x s : Nat) : x >>> s = x / 2 ^ s :=
  Nat.shiftRight_eq_div_pow x s

/-! ### Representation invariant

The committed part of a reachable vector consists of full (32-element)
`External` leaves.  `Blocks ns l` says that `ns` is a list of full external
leaves whose elements, in order, are `l`. -/

inductive Blocks : List (Node V) → List V → Prop
  | nil : Blocks [] []
  | cons {t : List V} {ns : List (Node V)} {l : List V} :
      t.length = NODE_SIZE → Blocks ns l →
      Blocks (Node.External t :: ns) (t ++ l)

theorem Blocks.length_eq {ns : List (Node V)} {l : List V} (h : Blocks ns l) :
    l.length = NODE_SIZE * ns.length := by
  induction h with
  | nil => simp
  | cons ht _ ih => simp [ih, ht, Nat.mul_succ, Nat.mul_add]; ring

theorem Blocks.toList_eq {ns : List (Node V)} {l : List V} (h : Blocks ns l) :
    nodesToList ns = l := by
  induction h with
  | nil => rfl
  | cons ht _ ih => simp [nodesToList, Node.toList, ih]

theorem Blocks.append {ns : List (Node V)} {l t : List V}
    (h : Blocks ns l) (ht : t.length = NODE_SIZE) :
    Blocks (ns ++ [Node.External t]) (l ++ t) := by
  induction h with
  | nil => simpa using Blocks.cons ht Blocks.nil
  | cons ht' hb ih =>
      simpa [List.append_assoc] using Blocks.cons ht' ih

theorem Blocks.snoc_elim {ns : List (Node V)} {l : List V} (h : Blocks ns l) :
    (ns = [] ∧ l = []) ∨
      ∃ ns' t l', ns = ns' ++ [Node.External t] ∧ l = l' ++ t ∧
        Blocks ns' l' ∧ t.length = NODE_SIZE := by
  induction h with
  | nil => exact Or.inl ⟨rfl, rfl⟩
  | cons ht hb ih =>
      rcases ih with ⟨rfl, rfl⟩ | ⟨ns', t', l', rfl, rfl, hb', ht'⟩
      · exact Or.inr ⟨[], _, [], by simp, by simp, Blocks.nil, ht⟩
      · exact Or.inr ⟨_ :: ns', t', _ ++ l',
          by simp, by simp, Blocks.cons ht hb', ht'⟩

theorem Blocks.get {ns : List (Node V)} {l : List V} (h : Blocks ns l) :
    ∀ j, j < ns.length →
      ∃ t, ns[j]? = some (Node.External t) ∧ t.length = NODE_SIZE ∧
        ∀ r, r < NODE_SIZE → t[r]? = l[NODE_SIZE * j + r]? := by
  induction h with
  | nil => intro j hj; simp at hj
  | cons ht hb ih =>
      intro j hj
      match j with
      | 0 =>
          refine ⟨_, by simp, ht, ?_⟩
          intro r hr
          rw [List.getElem?_append_left (by omega)]
          simp
      | j+1 =>
          simp only [List.length_cons, Nat.add_lt_add_iff_right] at hj
          obtain ⟨t', hget, ht', hidx⟩ := ih j hj
          refine ⟨t', by simpa using hget, ht', ?_⟩
          intro r hr
          rw [hidx r hr, List.getElem?_append_right (by rw [ht]; ring_nf; omega)]
          congr 1
          rw [ht]
          ring_nf
          omega

theorem Blocks.set {ns : List (Node V)} {l : List V} (h : Blocks ns l) :
    ∀ j r v, j < ns.length → r < NODE_SIZE →
      ∃ t, ns[j]? = some (Node.External t) ∧ t.length = NODE_SIZE ∧
        Blocks (ns.set j (Node.External (t.set r v)))
          (l.set (NODE_SIZE * j + r) v) := by
  induction h with
  | nil => intro j r v hj _; simp at hj
  | @cons t ns0 l0 ht hb ih =>
      intro j r v hj hr
      match j with
      | 0 =>
          refine ⟨t, by simp, ht, ?_⟩
          rw [Nat.mul_zero, Nat.zero_add, List.set_append_left _ _ (by omega)]
          exact Blocks.cons (by simp [ht]) hb
      | j+1 =>
          simp only [List.length_cons, Nat.add_lt_add_iff_right] at hj
          obtain ⟨t', hget, htl', hb'⟩ := ih j r v hj hr
          refine ⟨t', by simpa using hget, htl', ?_⟩
          have hge : t.length ≤ NODE_SIZE * (j + 1) + r := by
            rw [ht]; ring_nf; omega
          rw [List.set_cons_succ, List.set_append_right _ _ (by omega)]
          have hsub : NODE_SIZE * (j + 1) + r - t.length = NODE_SIZE * j + r := by
            rw [ht]; ring_nf; omega
          rw [hsub]
          exact Blocks.cons ht hb'

/-- Shape of the committed tree of a reachable vector, relating the root
node and the depth to the list `l` of committed elements.  Because
`push_external` always descends into the rightmost child (it never starts a
new branch when that child is full), a root of depth 2 reachable through the
public operations always has exactly two children: the wrapped old full
depth-1 root and the single rightmost branch grown by `new_path`; depth
never exceeds 2 (pushing further panics, see `C2_full_branch_panics`). -/
inductive RootRep : Node V → Nat → List V → Prop
  | empty : RootRep Node.Empty 0 []
  | single {t : List V} : t.length = NODE_SIZE → RootRep (Node.External t) 0 t
  | flat {ns : List (Node V)} {l : List V} :
      Blocks ns l → 2 ≤ ns.length → ns.length ≤ NODE_SIZE →
      RootRep (Node.Internal ns) 1 l
  | deep {ns1 : List (Node V)} {l1 : List V} {ns2 : List (Node V)} {l2 : List V} :
      Blocks ns1 l1 → ns1.length = NODE_SIZE →
      Blocks ns2 l2 → 1 ≤ ns2.length → ns2.length ≤ NODE_SIZE →
      RootRep (Node.Internal [Node.Internal ns1, Node.Internal ns2]) 2 (l1 ++ l2)

theorem RootRep.toList_rep {n : Node V} {d : Nat} {l : List V}
    (h : RootRep n d l) : n.toList = l := by
  cases h with
  | empty => rfl
  | single ht => rfl
  | flat hb _ _ => simp [Node.toList, hb.toList_eq]
  | deep hb1 _ hb2 _ _ =>
      simp [Node.toList, nodesToList, hb1.toList_eq, hb2.toList_eq]

theorem RootRep.size_dvd {n : Node V} {d : Nat} {l : List V}
    (h : RootRep n d l) : NODE_SIZE ∣ l.length := by
  cases h with
  | empty => simp
  | single ht => exact ⟨1, by omega⟩
  | flat hb _ _ => exact ⟨_, hb.length_eq⟩
  | deep hb1 _ hb2 _ _ =>
      rw [List.length_append]
      exact Nat.dvd_add ⟨_, hb1.length_eq⟩ ⟨_, hb2.length_eq⟩

theorem RootRep.nil_elim {n : Node V} {d : Nat}
    (h : RootRep n d ([] : List V)) : n = Node.Empty ∧ d = 0 := by
  generalize hl : ([] : List V) = l at h
  cases h with
  | empty => exact ⟨rfl, rfl⟩
  | single ht =>
      rw [← hl] at ht
      simp [NODE_SIZE] at ht
  | flat hb h2 _ =>
      have hL := hb.length_eq
      rw [← hl] at hL
      have hN : NODE_SIZE = 32 := rfl
      simp only [List.length_nil] at hL
      rw [hN] at hL
      omega
  | @deep ns1 l1 ns2 l2 hb1 hn1 hb2 _ _ =>
      have h1 := hb1.length_eq
      have h0 : l1.length = 0 := by
        have := congrArg List.length hl
        simp at this
        omega
      have hN : NODE_SIZE = 32 := rfl
      rw [h0, hn1, hN] at h1
      omega

/-- The invariant maintained by all public operations: the root represents a
committed list `l`, the length field counts `l` plus the tail, the tail
holds at most 32 elements, and the tail is empty only when the whole vector
is. -/
def Inv (c : CowVec V) : Prop :=
  ∃ l, RootRep c.root c.depth l ∧ c.len = l.length + c.tail.length ∧
    c.tail.length ≤ NODE_SIZE ∧ (c.tail = [] → l = [])

theorem Inv.toList_len {c : CowVec V} (h : Inv c) : c.toList.length = c.len := by
  obtain ⟨l, hrep, hlen, _, _⟩ := h
  simp [CowVec.toList, hrep.toList_rep, hlen]

/-- States reachable from `CowVec::new` through the public operations
(`push`, `pop`, writes through `get_mut`, `swap_remove`); `clone` shares
structure and is the identity in this value semantics. -/
inductive Reachable : CowVec V → Prop
  | base : Reachable CowVec.new
  | push {c : CowVec V} {v : V} {c' : CowVec V} :
      Reachable c → CowVec.push c v = some c' → Reachable c'
  | pop {c : CowVec V} {r : Option V} {c' : CowVec V} :
      Reachable c → CowVec.pop c = some (r, c') → Reachable c'
  | set {c : CowVec V} {i : Nat} {v : V} {c' : CowVec V} :
      Reachable c → CowVec.set c i v = some c' → Reachable c'
  | swap {c : CowVec V} {i : Nat} {v : V} {c' : CowVec V} :
      Reachable c → CowVec.swap_remove c i = some (v, c') → Reachable c'

theorem avPush_eq_some {l l' : List α} {a : α} :
    avPush l a = some l' ↔ l.length < NODE_SIZE ∧ l' = l ++ [a] := by
  unfold avPush
  split <;> simp_all [eq_comm]

theorem NODE_SIZE_eq : NODE_SIZE = 32 := rfl

theorem zero_lt_NS : (0 : Nat) < NODE_SIZE := by norm_num [NODE_SIZE]

theorem one_lt_NS : (1 : Nat) < NODE_SIZE := by norm_num [NODE_SIZE]

theorem two_lt_NS : (2 : Nat) < NODE_SIZE := by norm_num [NODE_SIZE]

/-- A successful `push` preserves the invariant and appends to the abstract
list.  (Not every push from an invariant state succeeds: see
`C2_full_branch_panics`.) -/
theorem push_some {c : CowVec V} {v : V} {c' : CowVec V}
    (hI : Inv c) (h : c.push v = some c') :
    Inv c' ∧ c'.toList = c.toList ++ [v] ∧ c'.len = c.len + 1 := by
  obtain ⟨l, hrep, hlen, htl, hte⟩ := hI
  obtain ⟨root, depth, tail, len⟩ := c
  simp only at hrep hlen htl hte
  by_cases htf : tail.length < NODE_SIZE
  · -- room in the tail
    simp only [CowVec.push, htf, if_true] at h
    replace h := Option.some.inj h
    subst h
    refine ⟨⟨l, hrep, by simp; omega, by simp; omega, by simp⟩, ?_, rfl⟩
    simp [CowVec.toList]
  · have tl_eq : tail.length = NODE_SIZE := Nat.le_antisymm htl (Nat.le_of_not_lt htf)
    by_cases hlen32 : len = NODE_SIZE
    · -- the tail becomes the root
      have hl0 : l.length = 0 := by omega
      have hlnil : l = [] := List.length_eq_zero.mp hl0
      subst hlnil
      obtain ⟨hroot, hdepth⟩ := hrep.nil_elim
      subst hroot hdepth
      simp only [CowVec.push, htf, if_false, hlen32, if_true] at h
      replace h := Option.some.inj h
      subst h
      refine ⟨⟨tail, RootRep.single tl_eq, by simp; omega,
        by simpa using one_lt_NS.le, by simp⟩, ?_, by simp [hlen32]⟩
      simp [CowVec.toList, Node.toList]
    · -- the old tail is grafted into the tree
      cases hrep with
      | empty =>
          exfalso
          simp at hlen
          omega
      | single ht =>
          simp only [CowVec.push, htf, if_false, hlen32, if_true,
            new_path, avPush, Node.make_internal_mut, Option.bind,
            List.length_nil, List.length_cons, List.getLast?, Nat.zero_add,
            zero_lt_NS, one_lt_NS, if_true] at h
          replace h := Option.some.inj h
          subst h
          refine ⟨⟨l ++ tail, ?_, ?_, by simpa using one_lt_NS.le, by simp⟩, ?_, rfl⟩
          · exact RootRep.flat
              (by simpa using Blocks.cons ht (Blocks.cons tl_eq Blocks.nil))
              (by simp) (by simpa using two_lt_NS.le)
          · simp
            omega
          · simp [CowVec.toList, Node.toList, nodesToList]
      | flat hb h2 h3 =>
          rename_i ns
          by_cases hw : ns.length < NODE_SIZE
          · simp only [CowVec.push, htf, if_false, hlen32, if_true,
              push_external, avPush, hw, if_true, Option.bind] at h
            replace h := Option.some.inj h
            subst h
            refine ⟨⟨l ++ tail, RootRep.flat (hb.append tl_eq) (by simp; omega)
                (by simp; omega), by simp; omega, by simpa using one_lt_NS.le,
                by simp⟩, ?_, rfl⟩
            simp [CowVec.toList, Node.toList, nodesToList_append, hb.toList_eq,
              nodesToList]
          · have hw' : ns.length = NODE_SIZE := Nat.le_antisymm h3 (Nat.le_of_not_lt hw)
            simp only [CowVec.push, htf, if_false, hlen32, if_true, hw,
              new_path, avPush, Node.make_internal_mut, Option.bind,
              List.length_nil, List.length_cons, List.getLast?, Nat.zero_add,
              List.dropLast, zero_lt_NS, one_lt_NS, if_true] at h
            replace h := Option.some.inj h
            subst h
            refine ⟨⟨l ++ tail, ?_, by simp; omega, by simpa using one_lt_NS.le,
                by simp⟩, ?_, rfl⟩
            · exact RootRep.deep hb hw'
                (by simpa using Blocks.cons tl_eq Blocks.nil)
                (by simp) (by simpa using one_lt_NS.le)
            · simp [CowVec.toList, Node.toList, nodesToList, hb.toList_eq]
      | deep hb1 hn1 hb2 h21 h22 =>
          rename_i ns1 l1 ns2 l2
          have hr2 : ([Node.Internal ns1, Node.Internal ns2] : List (Node V)).length < NODE_SIZE := by
            simp [NODE_SIZE]
          by_cases hw2 : ns2.length < NODE_SIZE
          · simp only [CowVec.push, htf, if_false, hlen32, if_true,
              push_external, avPush, hw2, hr2, if_true, Option.bind_eq_bind,
              Option.pure_def, Option.some_bind, Option.none_bind, Node.make_internal_mut, List.getLast?_cons_cons,
              List.getLast?_singleton, List.dropLast] at h
            replace h := Option.some.inj h
            subst h
            refine ⟨⟨(l1 ++ l2) ++ tail, ?_,
                by simp [List.length_append] at hlen ⊢; omega,
                by simpa using one_lt_NS.le, by simp⟩, ?_, rfl⟩
            · have hd := RootRep.deep hb1 hn1 (hb2.append tl_eq)
                (by simp) (by simp; omega)
              simpa using hd
            · simp [CowVec.toList, Node.toList, nodesToList, hb1.toList_eq,
                hb2.toList_eq, nodesToList_append]
          · exfalso
            simp only [CowVec.push, htf, if_false, hlen32, if_true,
              push_external, avPush, hw2, hr2, if_false, Option.bind_eq_bind,
              Option.pure_def, Option.some_bind, Option.none_bind, Node.make_internal_mut, List.getLast?_cons_cons,
              List.getLast?_singleton, List.dropLast] at h
            exact Option.noConfusion h

theorem pop_external_one {ns' : List (Node V)} {t : List V} :
    pop_external (Node.Internal (ns' ++ [Node.External t])) 1 =
      some (Node.External t, ns'.isEmpty,
        if ns'.isEmpty then Node.Empty else Node.Internal ns') := by
  simp only [pop_external, Node.make_internal_mut, List.getLast?_concat,
    Option.bind_eq_bind, Option.some_bind, List.dropLast_concat,
    Option.pure_def]

theorem pop_external_two {ns1 ns2' : List (Node V)} {t : List V} :
    pop_external
        (Node.Internal [Node.Internal ns1,
          Node.Internal (ns2' ++ [Node.External t])]) 2 =
      some (Node.External t, false,
        Node.Internal (if ns2'.isEmpty then [Node.Internal ns1]
          else [Node.Internal ns1, Node.Internal ns2'])) := by
  cases hE : ns2'.isEmpty with
  | true =>
      simp [pop_external, Node.make_internal_mut, List.getLast?_concat,
        Option.bind_eq_bind, pop_external_one, hE, List.dropLast]
  | false =>
      simp [pop_external, Node.make_internal_mut, List.getLast?_concat,
        Option.bind_eq_bind, pop_external_one, hE, List.dropLast, avPush,
        one_lt_NS]

/-- `pop` never panics from an invariant state, preserves the invariant, and
removes exactly the last element of the abstract list. -/
theorem pop_ok {c : CowVec V} (hI : Inv c) :
    ∃ r c', c.pop = some (r, c') ∧ Inv c' ∧
      ((c.len = 0 ∧ r = none ∧ c' = c) ∨
       (0 < c.len ∧ ∃ v, r = some v ∧ c.toList = c'.toList ++ [v] ∧
         c'.len + 1 = c.len)) := by
  obtain ⟨l, hrep, hlen, htl, hte⟩ := hI
  obtain ⟨root, depth, tail, len⟩ := c
  simp only at hrep hlen htl hte ⊢
  by_cases h0 : len = 0
  · subst h0
    refine ⟨none, _, ?_, ⟨l, hrep, hlen, htl, hte⟩, Or.inl ⟨rfl, rfl, rfl⟩⟩
    simp [CowVec.pop]
  · have htne : tail ≠ [] := by
      intro hnil
      exact h0 (by simp [hte hnil, hnil] at hlen; exact hlen)
    obtain ⟨ts, v, htv⟩ : ∃ ts v, tail = ts ++ [v] := by
      rcases List.eq_nil_or_concat tail with h | ⟨L, b, h⟩
      · exact absurd h htne
      · exact ⟨L, b, by simpa [List.concat_eq_append] using h⟩
    subst htv
    have hlen' : len = l.length + ts.length + 1 := by simp at hlen; omega
    by_cases h1 : len = 1 ∨ (ts ++ [v]).length > 1
    · -- pop directly from the tail
      refine ⟨some v, ⟨root, depth, ts, len - 1⟩, ?_, ?_,
        Or.inr ⟨by omega, v, rfl, ?_, by simp; omega⟩⟩
      · simp only [CowVec.pop]
        rw [if_neg h0, if_pos h1]
        simp [List.getLast?_concat]
      · refine ⟨l, hrep, by simp; omega, by simp at htl ⊢; omega, ?_⟩
        intro hts
        subst hts
        rcases h1 with h1 | h1
        · exact List.length_eq_zero.mp (by omega)
        · simp at h1
      · simp [CowVec.toList]
    · -- the tail has exactly one element and len ≥ 2
      have h1c := h1
      push_neg at h1c
      have hts0 : ts = [] := by
        have := h1c.2
        simp at this
        exact List.length_eq_zero.mp (by omega)
      subst hts0
      have hlen2 : 2 ≤ len := by omega
      have hll : l.length = len - 1 := by omega
      by_cases h2 : len - 1 = NODE_SIZE
      · -- special case: the root becomes the tail
        cases hrep with
        | empty =>
            exfalso
            rw [NODE_SIZE_eq] at h2
            simp at hll
            omega
        | single ht =>
            refine ⟨some v, ⟨Node.Empty, 0, l, len - 1⟩, ?_, ?_,
              Or.inr ⟨by omega, v, rfl, ?_, by simp; omega⟩⟩
            · simp only [CowVec.pop]
              rw [if_neg h0, if_neg h1, if_pos h2]
              simp [Node.to_external, Option.bind_eq_bind]
            · exact ⟨[], RootRep.empty, by simp; omega, ht.le, fun _ => rfl⟩
            · simp [CowVec.toList, Node.toList]
        | flat hb hw2 hw3 =>
            exfalso
            have hL := hb.length_eq
            rw [NODE_SIZE_eq] at hL h2
            omega
        | deep hb1 hn1 hb2 h21 h22 =>
            exfalso
            have hL1 := hb1.length_eq
            have hL2 := hb2.length_eq
            rw [NODE_SIZE_eq] at hL1 hL2 h2 hn1
            simp [List.length_append] at hll
            omega
      · -- refill the tail from the tree
        cases hrep with
        | empty =>
            exfalso
            simp at hll
            omega
        | single ht =>
            exact absurd (by omega : len - 1 = NODE_SIZE) h2
        | flat hb hw2 hw3 =>
            rcases hb.snoc_elim with ⟨rfl, rfl⟩ | ⟨ns', t, l', rfl, rfl, hb', ht⟩
            · exfalso
              simp at hll
              omega
            · have hns' : ns' ≠ [] := by
                intro h
                subst h
                simp at hw2
              have hlt' : l'.length = NODE_SIZE * ns'.length := hb'.length_eq
              by_cases hk : ns'.length = 1
              · -- root killer: collapse to a bare External root
                obtain ⟨x, rfl⟩ := List.length_eq_one.mp hk
                rcases hb'.snoc_elim with ⟨h, _⟩ | ⟨ns'', t0, l'', hx, rfl, hb'', ht0⟩
                · simp at h
                · have hns'' : ns'' = [] := by
                    rcases ns'' with _ | ⟨a, as⟩
                    · rfl
                    · exfalso
                      simp at hx
                  subst hns''
                  cases hb''
                  simp at hx
                  subst hx
                  refine ⟨some v, ⟨Node.External t0, 0, t, len - 1⟩, ?_, ?_,
                    Or.inr ⟨by omega, v, rfl, ?_, by simp; omega⟩⟩
                  · have hpe := @pop_external_one V [Node.External t0] t
                    simp at hpe
                    simp only [CowVec.pop]
                    rw [if_neg h0, if_neg h1, if_neg h2]
                    simp [hpe, Node.to_external, Option.bind_eq_bind]
                  · refine ⟨t0, RootRep.single ht0, ?_, ht.le, ?_⟩
                    · simp [List.length_append] at hll ⊢
                      omega
                    · intro hmt
                      subst hmt
                      simp [NODE_SIZE] at ht
                  · simp [CowVec.toList, Node.toList, nodesToList,
                      nodesToList_append]
              · -- no collapse
                have hk2 : 2 ≤ ns'.length :=
                  by have := List.length_pos.mpr hns'; omega
                refine ⟨some v, ⟨Node.Internal ns', 1, t, len - 1⟩, ?_, ?_,
                  Or.inr ⟨by omega, v, rfl, ?_, by simp; omega⟩⟩
                · simp only [CowVec.pop]
                  rw [if_neg h0, if_neg h1, if_neg h2]
                  simp [pop_external_one, Node.to_external,
                    Option.bind_eq_bind, hns', hk]
                · refine ⟨l', RootRep.flat hb' hk2 (by simp at hw3; omega), ?_,
                    ht.le, ?_⟩
                  · simp [List.length_append] at hll ⊢
                    omega
                  · intro hmt
                    subst hmt
                    simp [NODE_SIZE] at ht
                · simp [CowVec.toList, Node.toList, hb'.toList_eq,
                    nodesToList_append, nodesToList]
        | deep hb1 hn1 hb2 h21 h22 =>
            rename_i ns1 l1 ns2 l2
            rcases hb2.snoc_elim with ⟨rfl, rfl⟩ | ⟨ns2', t, l2', rfl, rfl, hb2', ht⟩
            · exfalso
              simp at h21
            · by_cases hk : ns2' = []
              · -- rightmost branch emptied: depth collapses to 1
                subst hk
                cases hb2'
                refine ⟨some v, ⟨Node.Internal ns1, 1, t, len - 1⟩, ?_, ?_,
                  Or.inr ⟨by omega, v, rfl, ?_, by simp; omega⟩⟩
                · have hpe := @pop_external_two V ns1 [] t
                  simp at hpe
                  simp only [CowVec.pop]
                  rw [if_neg h0, if_neg h1, if_neg h2]
                  simp [hpe, Node.to_external, Option.bind_eq_bind]
                · refine ⟨l1, RootRep.flat hb1 (by rw [hn1, NODE_SIZE_eq]; omega)
                    hn1.le, ?_, ht.le, ?_⟩
                  · simp [List.length_append] at hll ⊢
                    omega
                  · intro hmt
                    subst hmt
                    simp [NODE_SIZE] at ht
                · simp [CowVec.toList, Node.toList, hb1.toList_eq,
                    nodesToList_append, nodesToList]
              · -- rightmost branch still nonempty
                refine ⟨some v,
                  ⟨Node.Internal [Node.Internal ns1, Node.Internal ns2'], 2, t,
                    len - 1⟩, ?_, ?_,
                  Or.inr ⟨by omega, v, rfl, ?_, by simp; omega⟩⟩
                · simp only [CowVec.pop]
                  rw [if_neg h0, if_neg h1, if_neg h2]
                  simp [pop_external_two, Node.to_external,
                    Option.bind_eq_bind, hk]
                · refine ⟨l1 ++ l2', RootRep.deep hb1 hn1 hb2'
                    (List.length_pos.mpr hk) (by simp at h22; omega), ?_,
                    ht.le, ?_⟩
                  · simp [List.length_append] at hll ⊢
                    omega
                  · intro hmt
                    subst hmt
                    simp [NODE_SIZE] at ht
                · simp [CowVec.toList, Node.toList, hb1.toList_eq,
                    hb2'.toList_eq, nodesToList_append, nodesToList]

/-! ### Correctness of the index routing (`get`, `get_mut`) -/

theorem get_external_ext {n : List V} {i s : Nat} :
    get_external (Node.External n) i s = n[i &&& MASK]? := by
  rw [get_external]

theorem get_external_int {ns : List (Node V)} {i s : Nat} :
    get_external (Node.Internal ns) i s =
      (ns[(i >>> s) &&& MASK]?).bind
        (fun next => get_external next i (s - SHIFT)) := by
  rw [get_external]
  rcases h : ns[(i >>> s) &&& MASK]? with _ | next <;> simp

theorem sub_index_flat (i : Nat) :
    (i >>> SHIFT) &&& MASK = i % (NODE_SIZE * NODE_SIZE) / NODE_SIZE := by
  rw [mask_eq_mod, Nat.shiftRight_eq_div_pow,
    Nat.mod_mul_right_div_self]
  rfl

theorem sub_index_deep {i : Nat} (hi : i < 2 * (NODE_SIZE * NODE_SIZE)) :
    (i >>> (2 * SHIFT)) &&& MASK = i / (NODE_SIZE * NODE_SIZE) := by
  rw [mask_eq_mod, Nat.shiftRight_eq_div_pow]
  have h2 : (2 : Nat) ^ (2 * SHIFT) = NODE_SIZE * NODE_SIZE := rfl
  rw [h2]
  rw [NODE_SIZE_eq] at hi ⊢
  omega

theorem Blocks.get_flat {ns : List (Node V)} {l : List V} (hb : Blocks ns l)
    (i : Nat) (hi : i % (NODE_SIZE * NODE_SIZE) < l.length) :
    get_external (Node.Internal ns) i SHIFT =
      l[i % (NODE_SIZE * NODE_SIZE)]? := by
  have hlen := hb.length_eq
  have hj : i % (NODE_SIZE * NODE_SIZE) / NODE_SIZE < ns.length := by
    rw [NODE_SIZE_eq] at hlen hi ⊢
    omega
  obtain ⟨t, hget, htlen, hidx⟩ := hb.get _ hj
  rw [get_external_int, sub_index_flat, hget, Option.some_bind,
    get_external_ext]
  have hmm : i &&& MASK = i % (NODE_SIZE * NODE_SIZE) % NODE_SIZE := by
    rw [mask_eq_mod, Nat.mod_mod_of_dvd i ⟨NODE_SIZE, rfl⟩]
  rw [hmm, hidx _ (Nat.mod_lt _ (by rw [NODE_SIZE_eq]; omega)),
    Nat.div_add_mod]

theorem RootRep.get_eq {root : Node V} {d : Nat} {l : List V}
    (h : RootRep root d l) (i : Nat) (hi : i < l.length) :
    get_external root i (d * SHIFT) = l[i]? := by
  cases h with
  | empty => simp at hi
  | single ht =>
      rw [Nat.zero_mul, get_external_ext, mask_eq_mod,
        Nat.mod_eq_of_lt (by omega)]
  | flat hb h2 h3 =>
      have hcap : l.length ≤ NODE_SIZE * NODE_SIZE := by
        have := hb.length_eq
        rw [NODE_SIZE_eq] at this h3 ⊢
        omega
      have him : i % (NODE_SIZE * NODE_SIZE) = i := Nat.mod_eq_of_lt (by omega)
      have := hb.get_flat i (by omega)
      rw [him] at this
      rw [Nat.one_mul, this]
  | deep hb1 hn1 hb2 h21 h22 =>
      rename_i ns1 l1 ns2 l2
      have hL1 : l1.length = NODE_SIZE * NODE_SIZE := by
        rw [hb1.length_eq, hn1]
      have hL2 : l2.length ≤ NODE_SIZE * NODE_SIZE := by
        have := hb2.length_eq
        rw [NODE_SIZE_eq] at this h22 ⊢
        omega
      simp only [List.length_append] at hi
      have hcap : i < 2 * (NODE_SIZE * NODE_SIZE) := by omega
      rw [get_external_int, sub_index_deep hcap]
      have hstep : (2 * SHIFT - SHIFT) = SHIFT := by omega
      by_cases hlo : i < NODE_SIZE * NODE_SIZE
      · have h0 : i / (NODE_SIZE * NODE_SIZE) = 0 := Nat.div_eq_of_lt hlo
        rw [h0]
        simp only [List.getElem?_cons_zero, Option.some_bind, hstep]
        have := hb1.get_flat i (by rw [Nat.mod_eq_of_lt hlo]; omega)
        rw [Nat.mod_eq_of_lt hlo] at this
        rw [this, List.getElem?_append_left (by omega)]
      · have h1 : i / (NODE_SIZE * NODE_SIZE) = 1 := by
          rw [NODE_SIZE_eq] at hlo hcap ⊢
          omega
        rw [h1]
        simp only [List.getElem?_cons_succ, List.getElem?_cons_zero,
          Option.some_bind, hstep]
        have hmod : i % (NODE_SIZE * NODE_SIZE) = i - NODE_SIZE * NODE_SIZE := by
          rw [NODE_SIZE_eq] at hlo hcap ⊢
          omega
        have := hb2.get_flat i (by rw [NODE_SIZE_eq] at hL1 hlo ⊢; omega)
        rw [hmod] at this
        rw [this, List.getElem?_append_right (by omega), hL1]

/-- On an invariant state, `get` returns exactly the element of the abstract
list for every in-range index. -/
theorem get_eq_toList {c : CowVec V} (hI : Inv c) {i : Nat} (hi : i < c.len) :
    c.get i = c.toList[i]? := by
  obtain ⟨l, hrep, hlen, htl, hte⟩ := hI
  have hdvd := hrep.size_dvd
  have hto : c.tail_offset = l.length := by
    simp only [CowVec.tail_offset]
    omega
  rw [CowVec.get, hto, CowVec.toList, hrep.toList_rep]
  by_cases hio : i ≥ l.length
  · rw [if_pos hio, mask_eq_mod, List.getElem?_append_right hio]
    congr 1
    rw [NODE_SIZE_eq] at htl hdvd ⊢
    omega
  · rw [if_neg hio, hrep.get_eq i (by omega),
      List.getElem?_append_left (by omega)]

/-! ### Correctness of writes through `get_mut` -/

theorem set_external_ext {n : List V} {i s : Nat} {v : V} :
    set_external (Node.External n) i s v =
      if (i &&& MASK) < n.length then
        some (Node.External (n.set (i &&& MASK) v))
      else none := by
  rw [set_external]

theorem set_external_int {ns : List (Node V)} {i s : Nat} {v : V} :
    set_external (Node.Internal ns) i s v =
      (ns[(i >>> s) &&& MASK]?).bind (fun next =>
        (set_external next i (s - SHIFT) v).map
          (fun next1 => Node.Internal (ns.set ((i >>> s) &&& MASK) next1))) := by
  rw [set_external]
  rcases h : ns[(i >>> s) &&& MASK]? with _ | next
  · simp
  · rcases hs : set_external next i (s - SHIFT) v with _ | n1 <;> simp [hs]

theorem Blocks.set_flat {ns : List (Node V)} {l : List V} (hb : Blocks ns l)
    (i : Nat) (v : V) (hi : i % (NODE_SIZE * NODE_SIZE) < l.length) :
    ∃ ns', set_external (Node.Internal ns) i SHIFT v =
        some (Node.Internal ns') ∧
      Blocks ns' (l.set (i % (NODE_SIZE * NODE_SIZE)) v) ∧
      ns'.length = ns.length := by
  have hlen := hb.length_eq
  have hj : i % (NODE_SIZE * NODE_SIZE) / NODE_SIZE < ns.length := by
    rw [NODE_SIZE_eq] at hlen hi ⊢
    omega
  obtain ⟨t, hget, htl, hbs⟩ := hb.set (i % (NODE_SIZE * NODE_SIZE) / NODE_SIZE)
    (i % (NODE_SIZE * NODE_SIZE) % NODE_SIZE) v hj
    (Nat.mod_lt _ (by rw [NODE_SIZE_eq]; omega))
  have hmm : i &&& MASK = i % (NODE_SIZE * NODE_SIZE) % NODE_SIZE := by
    rw [mask_eq_mod, Nat.mod_mod_of_dvd i ⟨NODE_SIZE, rfl⟩]
  have hdm : NODE_SIZE * (i % (NODE_SIZE * NODE_SIZE) / NODE_SIZE) +
      i % (NODE_SIZE * NODE_SIZE) % NODE_SIZE = i % (NODE_SIZE * NODE_SIZE) :=
    Nat.div_add_mod _ NODE_SIZE
  rw [hdm] at hbs
  refine ⟨ns.set (i % (NODE_SIZE * NODE_SIZE) / NODE_SIZE)
      (Node.External (t.set (i % (NODE_SIZE * NODE_SIZE) % NODE_SIZE) v)),
    ?_, hbs, by simp⟩
  rw [set_external_int, sub_index_flat, hget, Option.some_bind,
    set_external_ext, hmm,
    if_pos (by rw [htl]; exact Nat.mod_lt _ (by rw [NODE_SIZE_eq]; omega))]
  rfl

theorem RootRep.set_eq {root : Node V} {d : Nat} {l : List V}
    (h : RootRep root d l) (i : Nat) (hi : i < l.length) (v : V) :
    ∃ root', set_external root i (d * SHIFT) v = some root' ∧
      RootRep root' d (l.set i v) := by
  cases h with
  | empty => simp at hi
  | single ht =>
      refine ⟨_, ?_, RootRep.single (by simp [ht])⟩
      rw [Nat.zero_mul, set_external_ext, mask_eq_mod,
        Nat.mod_eq_of_lt (by omega), if_pos (by omega)]
  | flat hb h2 h3 =>
      have hcap : l.length ≤ NODE_SIZE * NODE_SIZE := by
        have := hb.length_eq
        rw [NODE_SIZE_eq] at this h3 ⊢
        omega
      have him : i % (NODE_SIZE * NODE_SIZE) = i := Nat.mod_eq_of_lt (by omega)
      obtain ⟨ns', hse, hb', hlen'⟩ := hb.set_flat i v (by omega)
      rw [him] at hb'
      exact ⟨_, by rw [Nat.one_mul]; exact hse,
        RootRep.flat hb' (hlen' ▸ h2) (hlen' ▸ h3)⟩
  | deep hb1 hn1 hb2 h21 h22 =>
      rename_i ns1 l1 ns2 l2
      have hL1 : l1.length = NODE_SIZE * NODE_SIZE := by
        rw [hb1.length_eq, hn1]
      have hL2 : l2.length ≤ NODE_SIZE * NODE_SIZE := by
        have := hb2.length_eq
        rw [NODE_SIZE_eq] at this h22 ⊢
        omega
      simp only [List.length_append] at hi
      have hcap : i < 2 * (NODE_SIZE * NODE_SIZE) := by omega
      by_cases hlo : i < NODE_SIZE * NODE_SIZE
      · have h0 : i / (NODE_SIZE * NODE_SIZE) = 0 := Nat.div_eq_of_lt hlo
        obtain ⟨ns1', hse, hb1', hlen'⟩ := hb1.set_flat i v
          (by rw [Nat.mod_eq_of_lt hlo]; omega)
        rw [Nat.mod_eq_of_lt hlo] at hb1'
        refine ⟨Node.Internal [Node.Internal ns1', Node.Internal ns2], ?_, ?_⟩
        · rw [set_external_int, sub_index_deep hcap, h0,
            List.getElem?_cons_zero, Option.some_bind,
            show (2 * SHIFT - SHIFT) = SHIFT by omega, hse]
          rfl
        · rw [List.set_append_left _ _ (by omega)]
          exact RootRep.deep hb1' (hlen' ▸ hn1) hb2 h21 h22
      · have h1 : i / (NODE_SIZE * NODE_SIZE) = 1 := by
          rw [NODE_SIZE_eq] at hlo hcap ⊢
          omega
        have hmod : i % (NODE_SIZE * NODE_SIZE) = i - NODE_SIZE * NODE_SIZE := by
          rw [NODE_SIZE_eq] at hlo hcap ⊢
          omega
        obtain ⟨ns2', hse, hb2', hlen'⟩ := hb2.set_flat i v
          (by rw [NODE_SIZE_eq] at hL1 hlo ⊢; omega)
        rw [hmod] at hb2'
        refine ⟨Node.Internal [Node.Internal ns1, Node.Internal ns2'], ?_, ?_⟩
        · rw [set_external_int, sub_index_deep hcap, h1,
            List.getElem?_cons_succ, List.getElem?_cons_zero,
            Option.some_bind,
            show (2 * SHIFT - SHIFT) = SHIFT by omega, hse]
          rfl
        · rw [List.set_append_right _ _ (by omega), hL1]
          exact RootRep.deep hb1 hn1 hb2' (by omega) (by omega)

/-- On an invariant state, a write through `get_mut` at an in-range index
succeeds, preserves the invariant, and updates exactly that element. -/
theorem set_some_of_inv {c : CowVec V} (hI : Inv c) {i : Nat} (hi : i < c.len)
    (v : V) :
    ∃ c', c.set i v = some c' ∧ Inv c' ∧ c'.toList = c.toList.set i v ∧
      c'.len = c.len := by
  obtain ⟨l, hrep, hlen, htl, hte⟩ := hI
  have hdvd := hrep.size_dvd
  have hto : c.tail_offset = l.length := by
    simp only [CowVec.tail_offset]
    omega
  by_cases hio : l.length ≤ i
  · have hj : i &&& MASK = i - l.length := by
      rw [mask_eq_mod]
      rw [NODE_SIZE_eq] at htl hdvd ⊢
      omega
    refine ⟨{ c with tail := c.tail.set (i - l.length) v }, ?_, ?_, ?_, rfl⟩
    · rw [CowVec.set, hto, if_pos hio, hj, if_pos (by omega)]
    · refine ⟨l, hrep, by simp [hlen], by simp; omega, ?_⟩
      intro hset
      exact hte (by simpa using congrArg List.length hset)
    · simp only [CowVec.toList, hrep.toList_rep]
      rw [List.set_append_right _ _ (by omega)]
  · obtain ⟨root', hse, hrep'⟩ := hrep.set_eq i (by omega) v
    refine ⟨{ c with root := root' }, ?_, ?_, ?_, rfl⟩
    · rw [CowVec.set, hto, if_neg hio, hse]
      rfl
    · exact ⟨l.set i v, hrep', by simp [hlen], htl, fun h => by simp [hte h]⟩
    · simp only [CowVec.toList, hrep.toList_rep, hrep'.toList_rep]
      rw [List.set_append_left _ _ (by omega)]

/-- Any successful write through `get_mut` (in range or not) preserves the
invariant and the length. -/
theorem set_inv {c : CowVec V} (hI : Inv c) {i : Nat} {v : V} {c' : CowVec V}
    (h : c.set i v = some c') : Inv c' ∧ c'.len = c.len := by
  obtain ⟨l, hrep, hlen, htl, hte⟩ := hI
  rw [CowVec.set] at h
  by_cases hio : i ≥ c.tail_offset
  · rw [if_pos hio] at h
    by_cases hbd : (i &&& MASK) < c.tail.length
    · rw [if_pos hbd] at h
      replace h := Option.some.inj h
      subst h
      exact ⟨⟨l, hrep, by simp [hlen], by simp; omega, fun hset =>
        hte (by simpa using congrArg List.length hset)⟩, rfl⟩
    · rw [if_neg hbd] at h
      exact Option.noConfusion h
  · rw [if_neg hio] at h
    have hio' : i < l.length := by
      simp only [CowVec.tail_offset] at hio
      omega
    obtain ⟨root', hse, hrep'⟩ := hrep.set_eq i hio' v
    rw [hse] at h
    replace h := Option.some.inj h
    subst h
    exact ⟨⟨l.set i v, hrep', by simp [hlen], htl,
      fun hset => by simp [hte hset]⟩, rfl⟩

/-- Out-of-range reads (`index ≥ len`) are routed to the tail at local index
`index % 32`; they panic exactly when that masked index falls outside the
occupied tail slots.  This needs no invariant: `tail_offset ≤ len` always. -/
theorem get_oob {c : CowVec V} {i : Nat} (hi : c.len ≤ i) :
    c.get i = c.tail[i % NODE_SIZE]? := by
  rw [CowVec.get, if_pos (by simp [CowVec.tail_offset]; omega), mask_eq_mod]

/-- Out-of-range writes through `get_mut` behave like out-of-range reads:
they panic exactly when `index % 32` is outside the occupied tail slots. -/
theorem set_oob {c : CowVec V} {i : Nat} (hi : c.len ≤ i) (v : V) :
    c.set i v = none ↔ c.tail.length ≤ i % NODE_SIZE := by
  rw [CowVec.set, if_pos (by simp [CowVec.tail_offset]; omega), mask_eq_mod]
  by_cases hbd : i % NODE_SIZE < c.tail.length
  · rw [if_pos hbd]
    simp
    omega
  · rw [if_neg hbd]
    simp
    omega

/-! ### `swap_remove`, reachability, and iterated operations -/

/-- `swap_remove` on an invariant non-empty state at an in-range index:
it pops the last element `w`, returns the element previously at slot `i`,
and (unless `i` was the last slot) writes `w` into slot `i`. -/
theorem swap_remove_ok {c : CowVec V} (hI : Inv c) {i : Nat} (hi : i < c.len) :
    ∃ v c', c.swap_remove i = some (v, c') ∧ Inv c' ∧
      c.toList[i]? = some v ∧ c'.len + 1 = c.len ∧
      ∃ w, c.toList[c.len - 1]? = some w ∧
        c'.toList = (c.toList.dropLast).set i w ∧
        (i + 1 < c.len → c'.get i = some w) ∧
        (i + 1 = c.len → c.pop = some (some v, c')) := by
  obtain ⟨r, c1, hpop, hI1, hcase⟩ := pop_ok hI
  rcases hcase with ⟨h0, _, _⟩ | ⟨hpos, w, rfl, hTL, hL⟩
  · omega
  · have hlen1 : c1.toList.length = c1.len := hI1.toList_len
    have hdrop : c.toList.dropLast = c1.toList := by
      rw [hTL, List.dropLast_concat]
    have hlast : c.toList[c.len - 1]? = some w := by
      rw [hTL, List.getElem?_append_right (by omega),
        show c.len - 1 - c1.toList.length = 0 by omega]
      rfl
    by_cases heq : i = c1.len
    · refine ⟨w, c1, ?_, hI1, ?_, by omega, w, hlast, ?_, ?_, fun _ => hpop⟩
      · rw [CowVec.swap_remove, hpop]
        simp only [Option.bind_eq_bind, Option.some_bind]
        rw [if_pos heq]
        rfl
      · rw [hTL, List.getElem?_append_right (by omega),
          show i - c1.toList.length = 0 by omega]
        rfl
      · rw [hdrop, List.set_eq_of_length_le (by omega)]
      · intro hlt
        omega
    · have hilt : i < c1.len := by omega
      have hget : c1.get i = c1.toList[i]? := get_eq_toList hI1 hilt
      obtain ⟨u, hu⟩ : ∃ u, c1.toList[i]? = some u :=
        ⟨_, List.getElem?_eq_getElem (by omega)⟩
      obtain ⟨c2, hset, hI2, hTL2, hL2⟩ := set_some_of_inv hI1 hilt w
      refine ⟨u, c2, ?_, hI2, ?_, by omega, w, hlast, ?_, ?_, by omega⟩
      · rw [CowVec.swap_remove, hpop]
        simp only [Option.bind_eq_bind, Option.some_bind]
        rw [if_neg heq, hget, hu, Option.some_bind, hset]
        rfl
      · rw [hTL, List.getElem?_append_left (by omega), hu]
      · rw [hTL2, hdrop]
      · intro hlt
        rw [get_eq_toList hI2 (by omega), hTL2,
          List.getElem?_set_self (by omega)]

/-- Any successful `swap_remove` preserves the invariant. -/
theorem swap_remove_inv {c : CowVec V} (hI : Inv c) {i : Nat} {v : V}
    {c' : CowVec V} (h : c.swap_remove i = some (v, c')) : Inv c' := by
  obtain ⟨r, c1, hpop, hI1, hcase⟩ := pop_ok hI
  rw [CowVec.swap_remove, hpop] at h
  rcases hcase with ⟨h0, rfl, rfl⟩ | ⟨hpos, w, rfl, hTL, hL⟩
  · simp only [Option.bind_eq_bind, Option.some_bind, Option.none_bind] at h
    exact Option.noConfusion h
  · simp only [Option.bind_eq_bind, Option.some_bind] at h
    by_cases heq : i = c1.len
    · rw [if_pos heq] at h
      replace h := Option.some.inj h
      injection h with h1 h2
      rw [← h2]
      exact hI1
    · rw [if_neg heq] at h
      rcases hg : c1.get i with _ | u
      · rw [hg] at h
        exact Option.noConfusion h
      · rw [hg, Option.some_bind] at h
        rcases hs : c1.set i w with _ | c2
        · rw [hs] at h
          exact Option.noConfusion h
        · rw [hs] at h
          replace h := Option.some.inj h
          injection h with h1 h2
          rw [← h2]
          exact (set_inv hI1 hs).1

/-- Every state reachable through the public operations satisfies the
invariant. -/
theorem reach_inv {c : CowVec V} (h : Reachable c) : Inv c := by
  induction h with
  | base => exact ⟨[], RootRep.empty, rfl, Nat.zero_le _, fun _ => rfl⟩
  | push hr hp ih => exact (push_some ih hp).1
  | pop hr hp ih =>
      obtain ⟨r0, c0, hpop, hI0, _⟩ := pop_ok ih
      rw [hp] at hpop
      replace hpop := Option.some.inj hpop
      rw [← (Prod.mk.injEq _ _ _ _).mp hpop.symm |>.2]
      exact hI0
  | set hr hp ih => exact (set_inv ih hp).1
  | swap hr hp ih => exact swap_remove_inv ih hp

theorem pushAll_some {c : CowVec V} {vs : List V} {c' : CowVec V}
    (hI : Inv c) (h : pushAll c vs = some c') :
    Inv c' ∧ c'.toList = c.toList ++ vs ∧ c'.len = c.len + vs.length := by
  induction vs generalizing c with
  | nil =>
      rw [pushAll] at h
      replace h := Option.some.inj h
      subst h
      exact ⟨hI, by simp, rfl⟩
  | cons v vs ih =>
      rw [pushAll] at h
      rcases hp : c.push v with _ | c1 <;> rw [hp] at h
      · exact Option.noConfusion h
      · obtain ⟨hI1, hTL, hL⟩ := push_some hI hp
        obtain ⟨hI', hTL', hL'⟩ := ih hI1 h
        refine ⟨hI', by rw [hTL', hTL]; simp, by rw [hL', hL]; simp; omega⟩

theorem pushAll_reachable {c : CowVec V} {vs : List V} {c' : CowVec V}
    (hr : Reachable c) (h : pushAll c vs = some c') : Reachable c' := by
  induction vs generalizing c with
  | nil =>
      rw [pushAll] at h
      replace h := Option.some.inj h
      subst h
      exact hr
  | cons v vs ih =>
      rw [pushAll] at h
      rcases hp : c.push v with _ | c1 <;> rw [hp] at h
      · exact Option.noConfusion h
      · exact ih (Reachable.push hr hp) h

theorem popN_ok : ∀ n (c : CowVec V), Inv c → c.len = n →
    popN c (n + 1) = some (c.toList.reverse.map some ++ [none]) := by
  intro n
  induction n with
  | zero =>
      intro c hI hn
      obtain ⟨r, c', hpop, hI', hcase⟩ := pop_ok hI
      rcases hcase with ⟨h0, hr, hc⟩ | ⟨hpos, _⟩
      · subst hr
        rw [hc] at hpop
        have hnil : c.toList = [] :=
          List.length_eq_zero.mp (by rw [hI.toList_len]; omega)
        rw [popN, hpop]
        show (match popN c 0 with
          | some rest => some ((none : Option V) :: rest)
          | none => none) = _
        rw [popN]
        simp [hnil]
      · omega
  | succ n ih =>
      intro c hI hn
      obtain ⟨r, c', hpop, hI', hcase⟩ := pop_ok hI
      rcases hcase with ⟨h0, _, _⟩ | ⟨hpos, w, rfl, hTL, hL⟩
      · omega
      · rw [popN, hpop]
        show (match popN c' (n + 1) with
          | some rest => some (some w :: rest)
          | none => none) = _
        rw [ih c' hI' (by omega)]
        simp [hTL]

/-! ### Capacity: the tree never grows a third branch at depth 2

`push_external` always descends into the rightmost child of an `Internal`
node and never starts a new branch when that child is full (its `new_path`
fall-back only fires on a node with no children at all).  Consequently the
reachable tree shapes are exactly those of `RootRep`, whose committed size
is bounded by `2 * 32 * 32 = 2048` elements, and `push` panics exactly when
the vector holds `2048 + 32 = 2080` elements. -/

theorem inv_new : Inv (CowVec.new : CowVec V) :=
  ⟨[], RootRep.empty, rfl, Nat.zero_le _, fun _ => rfl⟩

theorem reachable_new : Reachable (CowVec.new : CowVec V) := Reachable.base

theorem RootRep.length_le {n : Node V} {d : Nat} {l : List V}
    (h : RootRep n d l) : l.length ≤ 2 * (NODE_SIZE * NODE_SIZE) := by
  cases h with
  | empty => simp
  | single ht =>
      rw [ht, NODE_SIZE_eq]
      norm_num
  | flat hb _ h3 =>
      have := hb.length_eq
      rw [NODE_SIZE_eq] at this h3 ⊢
      omega
  | deep hb1 hn1 hb2 _ h22 =>
      have h1 := hb1.length_eq
      have h2 := hb2.length_eq
      rw [NODE_SIZE_eq] at h1 h2 hn1 h22 ⊢
      simp only [List.length_append]
      omega

theorem Inv.len_le {c : CowVec V} (hI : Inv c) :
    c.len ≤ 2 * (NODE_SIZE * NODE_SIZE) + NODE_SIZE := by
  obtain ⟨l, hrep, hlen, htl, _⟩ := hI
  have := hrep.length_le
  omega

/-- From any invariant state, `push` panics if and only if the vector is at
the 2080-element capacity ceiling: the tail is full and the rightmost
depth-2 branch already holds its maximal 32 leaves, and instead of starting
a new branch `push_external` descends into the full branch and overflows
the `ArrayVec`. -/
theorem push_none_iff {c : CowVec V} (hI : Inv c) (v : V) :
    c.push v = none ↔ c.len = 2 * (NODE_SIZE * NODE_SIZE) + NODE_SIZE := by
  obtain ⟨l, hrep, hlen, htl, hte⟩ := hI
  have hdvd := hrep.size_dvd
  have hcap := hrep.length_le
  obtain ⟨root, depth, tail, len⟩ := c
  simp only at hrep hlen htl hte hdvd hcap ⊢
  by_cases htf : tail.length < NODE_SIZE
  · simp only [CowVec.push, htf, if_true]
    refine iff_of_false (by simp) ?_
    simp only [NODE_SIZE_eq] at *
    omega
  · have tl_eq : tail.length = NODE_SIZE := Nat.le_antisymm htl (Nat.le_of_not_lt htf)
    by_cases hlen32 : len = NODE_SIZE
    · simp only [CowVec.push, htf, if_false, hlen32, if_true]
      refine iff_of_false (by simp) ?_
      simp only [NODE_SIZE_eq] at *
      omega
    · cases hrep with
      | empty =>
          exfalso
          simp at hlen
          omega
      | single ht =>
          simp only [CowVec.push, htf, if_false, hlen32, if_true,
            new_path, avPush, Node.make_internal_mut, Option.bind,
            List.length_nil, List.length_cons, List.getLast?, Nat.zero_add,
            zero_lt_NS, one_lt_NS, if_true]
          refine iff_of_false (by simp [NODE_SIZE]) ?_
          simp only [NODE_SIZE_eq] at *
          omega
      | flat hb h2 h3 =>
          rename_i ns
          have hbl := hb.length_eq
          by_cases hw : ns.length < NODE_SIZE
          · simp only [CowVec.push, htf, if_false, hlen32, if_true,
              push_external, avPush, hw, if_true, Option.bind]
            refine iff_of_false (by simp [NODE_SIZE]) ?_
            simp only [NODE_SIZE_eq] at *
            omega
          · simp only [CowVec.push, htf, if_false, hlen32, if_true, hw,
              new_path, avPush, Node.make_internal_mut, Option.bind,
              List.length_nil, List.length_cons, List.getLast?, Nat.zero_add,
              List.dropLast, zero_lt_NS, one_lt_NS, if_true]
            refine iff_of_false (by simp [NODE_SIZE]) ?_
            simp only [NODE_SIZE_eq] at *
            omega
      | deep hb1 hn1 hb2 h21 h22 =>
          rename_i ns1 l1 ns2 l2
          have hbl1 := hb1.length_eq
          have hbl2 := hb2.length_eq
          have hr2 : ([Node.Internal ns1, Node.Internal ns2] : List (Node V)).length < NODE_SIZE := by
            simp [NODE_SIZE]
          simp only [List.length_append] at hlen hcap
          by_cases hw2 : ns2.length < NODE_SIZE
          · simp only [CowVec.push, htf, if_false, hlen32, if_true,
              push_external, avPush, hw2, hr2, if_true, Option.bind_eq_bind,
              Option.pure_def, Option.some_bind, Option.none_bind,
              Node.make_internal_mut, List.getLast?_cons_cons,
              List.getLast?_singleton, List.dropLast]
            refine iff_of_false (by simp [NODE_SIZE]) ?_
            simp only [NODE_SIZE_eq] at *
            omega
          · simp only [CowVec.push, htf, if_false, hlen32, if_true,
              push_external, avPush, hw2, hr2, if_false, Option.bind_eq_bind,
              Option.pure_def, Option.some_bind, Option.none_bind,
              Node.make_internal_mut, List.getLast?_cons_cons,
              List.getLast?_singleton, List.dropLast]
            have hw2e : ns2.length = NODE_SIZE :=
              Nat.le_antisymm h22 (Nat.le_of_not_lt hw2)
            refine iff_of_true trivial ?_
            simp only [NODE_SIZE_eq] at *
            omega

/-- Shape of the unique capacity-ceiling state: depth 2, a root with just
two children (far fewer than 32), a full rightmost branch and a full tail. -/
theorem full_state_shape {c : CowVec V} (hI : Inv c)
    (hfull : c.len = 2 * (NODE_SIZE * NODE_SIZE) + NODE_SIZE) :
    c.depth = 2 ∧ rootWidth c = 2 ∧ lastBranchWidth c = NODE_SIZE ∧
    c.tail.length = NODE_SIZE := by
  obtain ⟨l, hrep, hlen, htl, hte⟩ := hI
  have hcap := hrep.length_le
  obtain ⟨root, depth, tail, len⟩ := c
  simp only at hrep hlen htl hte hcap hfull ⊢
  have hl : l.length = 2 * (NODE_SIZE * NODE_SIZE) := by
    simp only [NODE_SIZE_eq] at hcap htl hfull ⊢
    omega
  cases hrep with
  | empty =>
      exfalso
      rw [NODE_SIZE_eq] at hl
      simp at hl
  | single ht =>
      exfalso
      rw [ht] at hl
      rw [NODE_SIZE_eq] at hl
      omega
  | flat hb _ h3 =>
      exfalso
      have := hb.length_eq
      rw [this] at hl
      rw [NODE_SIZE_eq] at hl h3
      omega
  | deep hb1 hn1 hb2 h21 h22 =>
      rename_i ns1 l1 ns2 l2
      have hL1 := hb1.length_eq
      have hL2 := hb2.length_eq
      simp only [List.length_append] at hl
      have hns2 : ns2.length = NODE_SIZE := by
        simp only [NODE_SIZE_eq] at *
        omega
      refine ⟨rfl, by simp [rootWidth], by simp [lastBranchWidth, hns2], ?_⟩
      simp only [NODE_SIZE_eq, List.length_append] at hl hfull htl hlen ⊢
      omega

theorem Blocks.replicate {t : List V} (ht : t.length = NODE_SIZE) :
    ∀ k, ∃ l, Blocks (List.replicate k (Node.External t)) l ∧
      l.length = NODE_SIZE * k
  | 0 => ⟨[], Blocks.nil, by simp⟩
  | k+1 => by
      obtain ⟨l, hb, hl⟩ := Blocks.replicate ht k
      refine ⟨t ++ l, ?_, ?_⟩
      · rw [List.replicate_succ]
        exact Blocks.cons ht hb
      · simp [hl, ht, Nat.mul_succ, Nat.mul_add]
        ring

/-! ### The claims -/

/-- Claim C1 (code_bug).  The push/pop inverse law holds on every run whose
pushes all succeed: after pushing `v_0..v_{n-1}` onto a new container,
`n + 1` successive pops return `some v_{n-1}, ..., some v_0, none`.  But
the pushes do not always succeed: the capacity bound forced by
`push_external` never starting a new rightmost branch makes the 2081st push
panic (second conjunct), so the law fails for `n ≥ 2081`. -/
theorem C1_push_pop_inverse :
    (∀ (W : Type) (vs : List W) (c : CowVec W),
      pushAll CowVec.new vs = some c →
      popN c (vs.length + 1) = some (vs.reverse.map some ++ [none])) ∧
    pushAll CowVec.new (List.range 2081) = none := by
  constructor
  · intro W vs c h
    obtain ⟨hI, hTL, hLen⟩ := pushAll_some inv_new h
    have hTL' : c.toList = vs := by
      simpa [CowVec.toList, CowVec.new, Node.toList] using hTL
    have hLen' : c.len = vs.length := by
      simpa [CowVec.new] using hLen
    have := popN_ok c.len c hI rfl
    rw [hTL', hLen'] at this
    exact this
  · by_contra hne
    obtain ⟨c, h⟩ := Option.ne_none_iff_exists'.mp hne
    obtain ⟨hI, _, hLen⟩ := pushAll_some inv_new h
    have hle := hI.len_le
    have hlen2081 : c.len = 2081 := by
      rw [hLen]
      simp [CowVec.new]
    simp only [NODE_SIZE_eq] at hle
    omega

/-- Witness for C1 at a concrete run. -/
theorem C1_witness :
    ∃ c : CowVec Nat, pushAll CowVec.new [5, 7] = some c ∧
      popN c 3 = some [some 7, some 5, none] := by
  have h : pushAll (CowVec.new : CowVec Nat) [5, 7] =
      some ⟨Node.Empty, 0, [5, 7], 2⟩ := by rfl
  refine ⟨_, h, ?_⟩
  have hc := C1_push_pop_inverse.1 Nat [5, 7] _ h
  simpa using hc

/-- Claim C2 (code_bug).  From any invariant state (hence any reachable
state), `push` panics exactly at the 2080-element ceiling (first conjunct);
in that state the tail is full, `len ≠ 32`, and the root is an `Internal`
node with only 2 < 32 children whose rightmost branch is full (second
conjunct) — precisely the situation in which the claim requires a new
rightmost branch to be started so that the push succeeds.  Instead,
`push_external` unconditionally descends into the full rightmost child and
overflows the `ArrayVec`. -/
theorem C2_full_branch_panics :
    (∀ (c : CowVec V) (v : V), Inv c →
      (c.push v = none ↔ c.len = 2 * (NODE_SIZE * NODE_SIZE) + NODE_SIZE)) ∧
    (∀ c : CowVec V, Inv c →
      c.len = 2 * (NODE_SIZE * NODE_SIZE) + NODE_SIZE →
      ¬ c.tail.length < NODE_SIZE ∧ c.len ≠ NODE_SIZE ∧ c.depth = 2 ∧
      rootWidth c = 2 ∧ 2 < NODE_SIZE ∧ lastBranchWidth c = NODE_SIZE) := by
  constructor
  · intro c v hI
    exact push_none_iff hI v
  · intro c hI hfull
    obtain ⟨hd, hw, hlb, htf⟩ := full_state_shape hI hfull
    refine ⟨by omega, ?_, hd, hw, two_lt_NS, hlb⟩
    simp only [NODE_SIZE_eq] at hfull ⊢
    omega

/-- Witness for C2: an explicit invariant state at the capacity ceiling on
which `push` panics. -/
theorem C2_witness :
    ∃ c : CowVec Nat, Inv c ∧
      c.len = 2 * (NODE_SIZE * NODE_SIZE) + NODE_SIZE ∧
      CowVec.push c 0 = none ∧ rootWidth c = 2 ∧
      lastBranchWidth c = NODE_SIZE := by
  have ht : (List.replicate NODE_SIZE (0 : Nat)).length = NODE_SIZE := by simp
  obtain ⟨l1, hb1, hl1⟩ := Blocks.replicate ht NODE_SIZE
  obtain ⟨l2, hb2, hl2⟩ := Blocks.replicate ht NODE_SIZE
  have hns : (List.replicate NODE_SIZE
      (Node.External (List.replicate NODE_SIZE (0 : Nat)))).length = NODE_SIZE := by
    simp
  have hI : Inv (⟨Node.Internal
      [Node.Internal (List.replicate NODE_SIZE
        (Node.External (List.replicate NODE_SIZE (0 : Nat)))),
       Node.Internal (List.replicate NODE_SIZE
        (Node.External (List.replicate NODE_SIZE (0 : Nat))))], 2,
      List.replicate NODE_SIZE (0 : Nat),
      2 * (NODE_SIZE * NODE_SIZE) + NODE_SIZE⟩ : CowVec Nat) := by
    refine ⟨l1 ++ l2, RootRep.deep hb1 hns hb2 ?_ ?_, ?_, by simp, ?_⟩
    · rw [hns, NODE_SIZE_eq]
      omega
    · rw [hns]
    · simp [List.length_append, hl1, hl2, NODE_SIZE_eq]
    · intro h
      have := congrArg List.length h
      rw [NODE_SIZE_eq] at this
      simp at this
  refine ⟨_, hI, rfl, ?_, by simp [rootWidth], by simp [lastBranchWidth]⟩
  exact (C2_full_branch_panics.1 _ 0 hI).mpr rfl

/-- Claim C3 (confirmed).  For every container built by pushing
`v_0..v_{n-1}` onto a new container and every `i < n`, `get i` returns
`v_i` — `CowVec.get`/`get_external` are the source's routing: tail hits
resolve at `i &&& (B-1)` and tree hits descend by `(i >>> s) &&& (B-1)`
with `s = depth * SHIFT` decreasing by `SHIFT` per level.  A write through
`get_mut i` succeeds, and a subsequent `get i` returns the written value. -/
theorem C3_get_routing :
    ∀ (vs : List V) (c : CowVec V), pushAll CowVec.new vs = some c →
      ∀ i, i < vs.length →
        c.get i = vs[i]? ∧
        ∀ x, ∃ c2, c.set i x = some c2 ∧ c2.get i = some x := by
  intro vs c h i hi
  obtain ⟨hI, hTL, hLen⟩ := pushAll_some inv_new h
  have hTL' : c.toList = vs := by
    simpa [CowVec.toList, CowVec.new, Node.toList] using hTL
  have hLen' : c.len = vs.length := by
    simpa [CowVec.new] using hLen
  have hilt : i < c.len := by omega
  constructor
  · rw [get_eq_toList hI hilt, hTL']
  · intro x
    obtain ⟨c2, hset, hI2, hTL2, hL2⟩ := set_some_of_inv hI hilt x
    refine ⟨c2, hset, ?_⟩
    have hilt2 : i < c2.len := by omega
    rw [get_eq_toList hI2 hilt2, hTL2, hTL',
      List.getElem?_set_self (by omega)]

/-- Witness for C3 at a concrete run of 40 pushes. -/
theorem C3_witness :
    ∃ c : CowVec Nat, pushAll CowVec.new (List.range 40) = some c ∧
      c.get 7 = some 7 ∧
      ∃ c2, c.set 7 99 = some c2 ∧ c2.get 7 = some 99 := by
  have h : pushAll (CowVec.new : CowVec Nat) (List.range 40) =
      some ⟨Node.External (List.range 32), 0,
        [32, 33, 34, 35, 36, 37, 38, 39], 40⟩ := by rfl
  obtain ⟨hget, hset⟩ := C3_get_routing (List.range 40) _ h 7 (by simp)
  refine ⟨_, h, ?_, hset 99⟩
  rw [hget]
  rfl

/-- Claim C4 (confirmed).  On every reachable container, `pop` does not
panic; it returns `none` exactly when the container is empty (leaving it
unchanged), and otherwise returns `some` of the last element while
decreasing `len` by exactly one. -/
theorem C4_pop_empty_or_last :
    ∀ c : CowVec V, Reachable c →
      ∃ r c', c.pop = some (r, c') ∧ (r = none ↔ c.len = 0) ∧
        (c.len = 0 → c' = c) ∧
        (0 < c.len → ∃ v, r = some v ∧ c.toList[c.len - 1]? = some v ∧
          c'.len + 1 = c.len) := by
  intro c hr
  obtain ⟨r, c', hpop, hI', hcase⟩ := pop_ok (reach_inv hr)
  rcases hcase with ⟨h0, rfl, rfl⟩ | ⟨hpos, w, rfl, hTL, hL⟩
  · exact ⟨none, c', hpop, by simp [h0], fun _ => rfl,
      fun h => absurd h (by omega)⟩
  · refine ⟨some w, c', hpop, iff_of_false (by simp) (by omega),
      fun h => absurd h (by omega), fun _ => ⟨w, rfl, ?_, hL⟩⟩
    have hlen1 : c'.toList.length = c'.len := hI'.toList_len
    rw [hTL, List.getElem?_append_right (by omega),
      show c.len - 1 - c'.toList.length = 0 by omega]
    rfl

/-- Witness for C4 at the empty container. -/
theorem C4_witness :
    ∃ (r : Option Nat) (c' : CowVec Nat), CowVec.pop CowVec.new = some (r, c') ∧
      r = none ∧ c' = CowVec.new := by
  obtain ⟨r, c', hpop, hiff, hunch, _⟩ :=
    C4_pop_empty_or_last (CowVec.new : CowVec Nat) Reachable.base
  exact ⟨r, c', hpop, hiff.mpr rfl, hunch rfl⟩

/-- Counterexample to claim C5 as stated: on the reachable one-element
container, the out-of-range index 32 does not panic — `get 32` silently
returns element 0, because the tail branch masks the index to
`32 &&& 31 = 0`. -/
theorem C5_counterexample :
    ∃ c : CowVec Nat, CowVec.push CowVec.new 0 = some c ∧ Reachable c ∧
      c.len = 1 ∧ c.get 32 = some 0 := by
  refine ⟨⟨Node.Empty, 0, [0], 1⟩, rfl, Reachable.push Reachable.base rfl,
    rfl, rfl⟩

/-- Claim C5 (corrected).  On every reachable container, an access at
`index ≥ len` is routed to the tail at local index `index % 32`; `get` and
a write through `get_mut` panic exactly when that masked index falls outside
the occupied tail slots, and otherwise silently return/overwrite the tail
element at local index `index % 32`. -/
theorem C5_amended :
    ∀ (c : CowVec V) (i : Nat), Reachable c → c.len ≤ i →
      c.get i = c.tail[i % NODE_SIZE]? ∧
      (c.get i = none ↔ c.tail.length ≤ i % NODE_SIZE) ∧
      (∀ v, c.set i v = none ↔ c.tail.length ≤ i % NODE_SIZE) := by
  intro c i hr hi
  refine ⟨get_oob hi, ?_, fun v => set_oob hi v⟩
  rw [get_oob hi]
  simp [List.getElem?_eq_none_iff]

/-- Witness for C5's amended statement: on the one-element container,
`get 1` panics (`1 % 32 = 1` is outside the tail) while `get 32` does not. -/
theorem C5_amended_witness :
    ∃ c : CowVec Nat, CowVec.push CowVec.new 0 = some c ∧ c.len ≤ 1 ∧
      c.get 1 = none ∧ c.get 32 = c.tail[0]? := by
  have h : CowVec.push (CowVec.new : CowVec Nat) 0 =
      some ⟨Node.Empty, 0, [0], 1⟩ := rfl
  refine ⟨⟨Node.Empty, 0, [0], 1⟩, h, by simp, ?_, ?_⟩
  · have := (C5_amended (⟨Node.Empty, 0, [0], 1⟩ : CowVec Nat) 1
      (Reachable.push Reachable.base h) (by simp)).2.1
    rw [this]
    simp [NODE_SIZE_eq]
  · have := (C5_amended (⟨Node.Empty, 0, [0], 1⟩ : CowVec Nat) 32
      (Reachable.push Reachable.base h) (by simp)).1
    rw [this]
    simp [NODE_SIZE_eq]

/-- Claim C6 (confirmed).  On every reachable non-empty container and index
`i < len`, `swap_remove i` succeeds, shrinks `len` by one and returns the
element previously at slot `i`; when `i < len - 1` it moves the old last
element into slot `i` (a subsequent `get i` returns it), and when
`i = len - 1` it returns the popped last element directly, the state being
exactly the result of `pop`. -/
theorem C6_swap_remove :
    ∀ (c : CowVec V) (i : Nat), Reachable c → i < c.len →
      ∃ v c', c.swap_remove i = some (v, c') ∧ c'.len + 1 = c.len ∧
        c.toList[i]? = some v ∧
        ∃ w, c.toList[c.len - 1]? = some w ∧
          (i + 1 < c.len → c'.get i = some w) ∧
          (i + 1 = c.len → c.pop = some (some v, c')) := by
  intro c i hr hi
  obtain ⟨v, c', hswap, hI', hv, hL, w, hw, _, hget, hlast⟩ :=
    swap_remove_ok (reach_inv hr) hi
  exact ⟨v, c', hswap, hL, hv, w, hw, hget, hlast⟩

/-- Witness for C6 on `[10, 20, 30]` at index 0. -/
theorem C6_witness :
    ∃ (c : CowVec Nat) (v : Nat) (c' : CowVec Nat),
      pushAll CowVec.new [10, 20, 30] = some c ∧
      c.swap_remove 0 = some (v, c') ∧ c'.len + 1 = c.len ∧
      c.toList[(0 : Nat)]? = some v := by
  have h : pushAll (CowVec.new : CowVec Nat) [10, 20, 30] =
      some ⟨Node.Empty, 0, [10, 20, 30], 3⟩ := rfl
  obtain ⟨v, c', hswap, hL, hv, _⟩ :=
    C6_swap_remove (⟨Node.Empty, 0, [10, 20, 30], 3⟩ : CowVec Nat) 0
      (pushAll_reachable Reachable.base h) (by simp)
  exact ⟨_, v, c', h, hswap, hL, hv⟩

/-- Claim C8 (confirmed).  The push that overflows the first full tail
(`len = 32`) installs the tail directly as the root `External` node with no
`Internal` wrapper and depth 0; the push that overflows the next full tail
(`len = 64`) wraps the bare root in an `Internal` node and sets depth 1.
After each transition `len` is correct and every element remains readable
at its index. -/
theorem C8_depth_transitions :
    (∀ (c : CowVec V) (v : V), Reachable c → c.len = NODE_SIZE →
      ∃ c', c.push v = some c' ∧ c'.root = Node.External c.tail ∧
        c'.depth = 0 ∧ c'.len = NODE_SIZE + 1 ∧
        ∀ i, i < c'.len → c'.get i = (c.toList ++ [v])[i]?) ∧
    (∀ (c : CowVec V) (v : V), Reachable c → c.len = 2 * NODE_SIZE →
      ∃ t c', c.root = Node.External t ∧ c.push v = some c' ∧
        c'.root = Node.Internal [Node.External t, Node.External c.tail] ∧
        c'.depth = 1 ∧ c'.len = 2 * NODE_SIZE + 1 ∧
        ∀ i, i < c'.len → c'.get i = (c.toList ++ [v])[i]?) := by
  constructor
  · intro c v hr h32
    obtain ⟨l, hrep, hlen, htl, hte⟩ := reach_inv hr
    have hdvd := hrep.size_dvd
    have hl0 : l.length = 0 := by
      by_contra hne
      have hpos : 0 < l.length := Nat.pos_of_ne_zero hne
      have h32g : NODE_SIZE ≤ l.length := Nat.le_of_dvd hpos hdvd
      have htne : c.tail ≠ [] := by
        intro hnil
        rw [hte hnil] at hne
        simp at hne
      have htpos : 1 ≤ c.tail.length := List.length_pos.mpr htne
      omega
    have hlnil : l = [] := List.length_eq_zero.mp hl0
    subst hlnil
    obtain ⟨hroot, hdepth⟩ := hrep.nil_elim
    have htf : c.tail.length = NODE_SIZE := by
      simp at hlen
      omega
    have hp : c.push v =
        some { c with root := Node.External c.tail, tail := [v], len := c.len + 1 } := by
      rw [CowVec.push, if_neg (by omega), if_pos h32]
    obtain ⟨hI2, hTL2, hL2⟩ := push_some ⟨[], hrep, hlen, htl, hte⟩ hp
    refine ⟨_, hp, rfl, by simp [hdepth], by simp [h32], ?_⟩
    intro i hilt
    rw [get_eq_toList hI2 hilt, hTL2]
  · intro c v hr h64
    obtain ⟨l, hrep, hlen, htl, hte⟩ := reach_inv hr
    have hdvd := hrep.size_dvd
    obtain ⟨root, depth, tail, len⟩ := c
    simp only at hrep hlen htl hte h64 ⊢
    have htne : tail ≠ [] := by
      intro hnil
      rw [hte hnil, hnil] at hlen
      simp at hlen
      rw [NODE_SIZE_eq] at h64
      omega
    have htpos : 1 ≤ tail.length := List.length_pos.mpr htne
    have hl32 : l.length = NODE_SIZE := by
      rcases hdvd with ⟨k, hk⟩
      rw [NODE_SIZE_eq] at hk h64 htl ⊢
      omega
    have htf : tail.length = NODE_SIZE := by omega
    cases hrep with
    | empty =>
        exfalso
        rw [NODE_SIZE_eq] at hl32
        simp at hl32
    | single ht =>
        have hp : CowVec.push ⟨Node.External l, 0, tail, len⟩ v =
            some ⟨Node.Internal [Node.External l, Node.External tail], 1, [v], len + 1⟩ := by
          rw [CowVec.push]
          rw [if_neg (by simp only; omega), if_neg (by
            simp only [NODE_SIZE_eq] at h64 ⊢
            omega)]
          simp only [new_path, avPush, Node.make_internal_mut,
            Option.bind_eq_bind, Option.pure_def, Option.some_bind,
            List.length_append, List.nil_append, List.singleton_append,
            List.length_nil,
            List.length_cons, Nat.zero_add, zero_lt_NS, one_lt_NS, if_true]
        obtain ⟨hI2, hTL2, hL2⟩ := push_some
          ⟨l, RootRep.single ht, hlen, htl, hte⟩ hp
        refine ⟨l, _, rfl, hp, rfl, rfl, by simp [h64], ?_⟩
        intro i hilt
        rw [get_eq_toList hI2 hilt, hTL2]
    | flat hb h2 h3 =>
        exfalso
        have hL := hb.length_eq
        rw [NODE_SIZE_eq] at hL hl32 h3
        omega
    | deep hb1 hn1 hb2 h21 h22 =>
        exfalso
        have hL1 := hb1.length_eq
        simp only [List.length_append] at hl32
        rw [NODE_SIZE_eq] at hL1 hn1 hl32
        omega

/-- Witness for C8 at concrete runs of 32 and 64 pushes. -/
theorem C8_witness :
    ∃ c32 c33 : CowVec Nat, pushAll CowVec.new (List.range 32) = some c32 ∧
      CowVec.push c32 99 = some c33 ∧ c33.root = Node.External c32.tail ∧
      c33.depth = 0 ∧ c33.len = 33 ∧ c33.get 32 = some 99 ∧
      ∃ c64 c65 : CowVec Nat,
        pushAll CowVec.new (List.range 64) = some c64 ∧
        CowVec.push c64 77 = some c65 ∧ c65.depth = 1 ∧ c65.len = 65 ∧
        c65.get 64 = some 77 := by
  have h32 : pushAll (CowVec.new : CowVec Nat) (List.range 32) =
      some ⟨Node.Empty, 0, List.range 32, 32⟩ := by rfl
  obtain ⟨c33, hp33, hroot, hdep, hlen, hget⟩ :=
    C8_depth_transitions.1 (⟨Node.Empty, 0, List.range 32, 32⟩ : CowVec Nat)
      99 (pushAll_reachable Reachable.base h32) rfl
  have h64 : pushAll (CowVec.new : CowVec Nat) (List.range 64) =
      some ⟨Node.External (List.range 32), 0, List.range' 32 32, 64⟩ := by rfl
  obtain ⟨t, c65, _, hp65, _, hdep', hlen', hget'⟩ :=
    C8_depth_transitions.2
      (⟨Node.External (List.range 32), 0, List.range' 32 32, 64⟩ : CowVec Nat)
      77 (pushAll_reachable Reachable.base h64) rfl
  refine ⟨_, c33, h32, hp33, hroot, hdep, by rw [hlen]; norm_num [NODE_SIZE_eq], ?_,
    _, c65, h64, hp65, hdep', by rw [hlen']; norm_num [NODE_SIZE_eq], ?_⟩
  · rw [hget 32 (by rw [hlen, NODE_SIZE_eq]; omega)]
    rfl
  · rw [hget' 64 (by rw [hlen']; rw [NODE_SIZE_eq]; omega)]
    rfl

/-- Claim C9 (confirmed).  On every reachable container the committed count
`len - tail.len()` is a multiple of 32 (and the subtraction never
underflows since `tail.len() ≤ len`); the tail is empty exactly when the
container is, so `tail.len() ∈ [1, 32]` whenever `len > 0`. -/
theorem C9_tail_invariant :
    ∀ c : CowVec V, Reachable c →
      c.tail.length ≤ c.len ∧ NODE_SIZE ∣ (c.len - c.tail.length) ∧
      (c.len = 0 ↔ c.tail = []) ∧
      (0 < c.len → 1 ≤ c.tail.length ∧ c.tail.length ≤ NODE_SIZE) := by
  intro c hr
  obtain ⟨l, hrep, hlen, htl, hte⟩ := reach_inv hr
  have hdvd := hrep.size_dvd
  have hsub : c.len - c.tail.length = l.length := by omega
  refine ⟨by omega, by rw [hsub]; exact hdvd, ?_, ?_⟩
  · constructor
    · intro h0
      have : c.tail.length = 0 := by omega
      exact List.length_eq_zero.mp this
    · intro hnil
      rw [hte hnil, hnil] at hlen
      simpa using hlen
  · intro hpos
    refine ⟨?_, htl⟩
    rcases Nat.eq_zero_or_pos c.tail.length with h | h
    · exfalso
      have hnil : c.tail = [] := List.length_eq_zero.mp h
      rw [hte hnil, hnil] at hlen
      simp at hlen
      omega
    · omega

/-- Witness for C9 at a concrete one-element container. -/
theorem C9_witness :
    ∃ c : CowVec Nat, CowVec.push CowVec.new 5 = some c ∧
      NODE_SIZE ∣ (c.len - c.tail.length) ∧ 1 ≤ c.tail.length := by
  have h : CowVec.push (CowVec.new : CowVec Nat) 5 =
      some ⟨Node.Empty, 0, [5], 1⟩ := rfl
  obtain ⟨_, hdvd, _, hpos⟩ :=
    C9_tail_invariant (⟨Node.Empty, 0, [5], 1⟩ : CowVec Nat)
      (Reachable.push Reachable.base h)
  exact ⟨_, h, hdvd, (hpos (by simp)).1⟩

/-- Claim C10 (confirmed).  `swap_remove` on an empty container panics for
every index argument: it unwraps the `None` returned by `pop`, so emptiness
is caller-handleable only through `pop`, never through `swap_remove`. -/
theorem C10_swap_remove_empty :
    ∀ (c : CowVec V) (i : Nat), Reachable c → c.len = 0 →
      c.swap_remove i = none := by
  intro c i hr h0
  rw [CowVec.swap_remove, CowVec.pop, if_pos h0]
  rfl

/-- Witness for C10 at the empty container with index 5. -/
theorem C10_witness : CowVec.swap_remove (CowVec.new : CowVec Nat) 5 = none :=
  C10_swap_remove_empty CowVec.new 5 Reachable.base rfl

end CowStructs

